import Mathlib

/-!
Verification of the transaction-status layer of a blockchain client
(transaction encoding/decoding, instruction parsing fallback, status
metadata projection, commitment checks).

The Rust structures and functions of `transaction-status/src/lib.rs` are
embedded shallowly: machine integers become `Nat` (with explicit bounds
where overflow could matter), `Vec<T>` becomes `List T`, `Option`/`Result`
become `Option`/`Except`, and the external byte-level codecs used by the
code (`bincode`, `bs58`, `base64`), whose sources are not part of this
repository, are modelled as concrete executable functions faithful to the
specification's description of them ("canonical binary serialization",
base-58 and base-64 text encodings).
-/

/-! ## Byte-level primitives

Bytes are `Nat`s below 256.  `natToBytesLE w n` is the `w`-byte
little-endian rendering of `n` (the integer encoding used by the
canonical binary serialization for fixed-width fields and lengths). -/

/-- `w`-byte little-endian rendering of a natural number. -/
def natToBytesLE : Nat → Nat → List Nat
  | 0, _ => []
  | w + 1, n => n % 256 :: natToBytesLE w (n / 256)

/-- Every list element of `natToBytesLE` is a byte. -/
theorem natToBytesLE_lt (w n : Nat) : ∀ b ∈ natToBytesLE w n, b < 256 := by
  induction w generalizing n with
  | zero => intro b hb; simp [natToBytesLE] at hb
  | succ w ih =>
    intro b hb
    simp only [natToBytesLE, List.mem_cons] at hb
    rcases hb with h | h
    · omega
    · exact ih _ _ h

/-- `natToBytesLE` has the requested width. -/
theorem natToBytesLE_length (w n : Nat) : (natToBytesLE w n).length = w := by
  induction w generalizing n with
  | zero => rfl
  | succ w ih => simp [natToBytesLE, ih]

/-- Parse errors of the canonical binary deserializer: the input ended
too early, or a tag/shape was invalid. -/
inductive ParseErr where
  | eof
  | invalid
deriving DecidableEq, Repr

/-- A byte-stream parser: consumes a prefix of the byte list and returns
the parsed value together with the remaining bytes. -/
def ByteParser (α : Type) : Type := List Nat → Except ParseErr (α × List Nat)

/-- Read `w` bytes as a little-endian natural number. -/
def pFixedNat : Nat → ByteParser Nat
  | 0, bs => .ok (0, bs)
  | _ + 1, [] => .error .eof
  | w + 1, b :: bs =>
    match pFixedNat w bs with
    | .ok (v, rest) => .ok (b + 256 * v, rest)
    | .error e => .error e

/-- Reading back a little-endian rendering yields the value modulo `256 ^ w`,
with the trailing bytes untouched. -/
theorem pFixedNat_natToBytesLE (w n : Nat) (rest : List Nat) :
    pFixedNat w (natToBytesLE w n ++ rest) = .ok (n % 256 ^ w, rest) := by
  induction w generalizing n with
  | zero => simp [natToBytesLE, pFixedNat, Nat.mod_one]
  | succ w ih =>
    simp only [natToBytesLE, List.cons_append, pFixedNat, List.append_eq, ih]
    have h : n % 256 + 256 * (n / 256 % 256 ^ w) = n % 256 ^ (w + 1) := by
      rw [pow_succ, mul_comm (256 ^ w) 256, Nat.mod_mul]
    rw [h]

/-- Reading back a little-endian rendering of a small enough value
recovers it exactly. -/
theorem pFixedNat_natToBytesLE_of_lt {w n : Nat} (h : n < 256 ^ w)
    (rest : List Nat) :
    pFixedNat w (natToBytesLE w n ++ rest) = .ok (n, rest) := by
  rw [pFixedNat_natToBytesLE, Nat.mod_eq_of_lt h]

/-- Take exactly `n` raw bytes from the stream. -/
def pRaw : Nat → ByteParser (List Nat)
  | 0, bs => .ok ([], bs)
  | _ + 1, [] => .error .eof
  | n + 1, b :: bs =>
    match pRaw n bs with
    | .ok (l, rest) => .ok (b :: l, rest)
    | .error e => .error e

/-- `pRaw` takes back exactly the bytes that were put in front. -/
theorem pRaw_append (l rest : List Nat) :
    pRaw l.length (l ++ rest) = .ok (l, rest) := by
  induction l with
  | nil => rfl
  | cons b bs ih => simp [pRaw, ih]

/-- Run a parser `n` times in sequence. -/
def pCount (p : ByteParser α) : Nat → ByteParser (List α)
  | 0, bs => .ok ([], bs)
  | n + 1, bs =>
    match p bs with
    | .ok (a, bs') =>
      match pCount p n bs' with
      | .ok (l, rest) => .ok (a :: l, rest)
      | .error e => .error e
    | .error e => .error e

/-- Sequence length used by the canonical binary serialization:
an 8-byte little-endian count. -/
def serLen (n : Nat) : List Nat := natToBytesLE 8 n

/-- Serialize the elements of a list after its 8-byte length. -/
def serListWith (f : α → List Nat) (l : List α) : List Nat :=
  serLen l.length ++ (l.map f).flatten

/-- Parse an 8-byte length, then that many elements. -/
def pList (p : ByteParser α) : ByteParser (List α) := fun bs =>
  match pFixedNat 8 bs with
  | .ok (n, bs') => pCount p n bs'
  | .error e => .error e

/-- `pCount` recovers a list whose elements were serialized one after the
other, provided the element parser recovers each element. -/
theorem pCount_append {f : α → List Nat} {p : ByteParser α} (l : List α)
    (hp : ∀ a ∈ l, ∀ rest, p (f a ++ rest) = .ok (a, rest)) (rest : List Nat) :
    pCount p l.length ((l.map f).flatten ++ rest) = .ok (l, rest) := by
  induction l with
  | nil => rfl
  | cons a l ih =>
    have ha := hp a (List.mem_cons_self a l) (((l.map f).flatten ++ rest))
    simp only [List.map_cons, List.flatten, List.length_cons, pCount,
      List.append_assoc, ha]
    rw [ih (fun x hx => hp x (List.mem_cons_of_mem a hx))]

/-- `pList` recovers a list from `serListWith`, for lists short enough for
their length to fit in 8 bytes. -/
theorem pList_serListWith {f : α → List Nat} {p : ByteParser α} (l : List α)
    (hlen : l.length < 256 ^ 8)
    (hp : ∀ a ∈ l, ∀ rest, p (f a ++ rest) = .ok (a, rest)) (rest : List Nat) :
    pList p (serListWith f l ++ rest) = .ok (l, rest) := by
  simp only [pList, serListWith, serLen, List.append_assoc,
    pFixedNat_natToBytesLE_of_lt hlen]
  exact pCount_append l hp rest

/-- All bytes of a `serListWith` output are bytes whenever the element
serializer only emits bytes. -/
theorem serListWith_lt {f : α → List Nat} (l : List α)
    (hf : ∀ a ∈ l, ∀ b ∈ f a, b < 256) :
    ∀ b ∈ serListWith f l, b < 256 := by
  intro b hb
  simp only [serListWith, serLen, List.mem_append] at hb
  rcases hb with h | h
  · exact natToBytesLE_lt 8 l.length b h
  · rcases List.mem_flatten.mp h with ⟨chunk, hchunk, hbc⟩
    rcases List.mem_map.mp hchunk with ⟨a, ha, rfl⟩
    exact hf a ha b hbc

/-- Base-`b` digits of `n`, little-endian, by structural recursion on a
fuel bound (so that concrete instances evaluate inside the kernel). -/
def natToDigitsAux (b : Nat) : Nat → Nat → List Nat
  | 0, _ => []
  | _ + 1, 0 => []
  | fuel + 1, n + 1 => ((n + 1) % b) :: natToDigitsAux b fuel ((n + 1) / b)

/-- Base-`b` digits of `n`, little-endian. -/
def natToDigits (b n : Nat) : List Nat := natToDigitsAux b n n

/-- The fuel-based digits agree with `Nat.digits` whenever the fuel
suffices. -/
theorem natToDigitsAux_eq_digits (b : Nat) (hb : 2 ≤ b) :
    ∀ fuel n, n ≤ fuel → natToDigitsAux b fuel n = Nat.digits b n := by
  intro fuel
  induction fuel with
  | zero =>
    intro n hn
    obtain rfl : n = 0 := Nat.le_zero.mp hn
    simp [natToDigitsAux]
  | succ fuel ih =>
    intro n hn
    cases n with
    | zero => simp [natToDigitsAux]
    | succ m =>
      rw [natToDigitsAux, Nat.digits_def' (by omega : 1 < b) (Nat.succ_pos m)]
      congr 1
      refine ih _ ?_
      have := Nat.div_lt_self (show 0 < m + 1 by omega) (by omega : 1 < b)
      omega

/-- The fuel-based digits agree with `Nat.digits`. -/
theorem natToDigits_eq_digits (b n : Nat) (hb : 2 ≤ b) :
    natToDigits b n = Nat.digits b n :=
  natToDigitsAux_eq_digits b hb n n le_rfl

/-! ## Base-58 text codec

Model of the `bs58` crate used by the transaction codec: a byte string is
the count of its leading zero bytes (each rendered as the alphabet's first
character) followed by the big-endian base-58 digits of its value. -/

/-- The base-58 alphabet (digits and letters, minus `0`, `O`, `I`, `l`). -/
def b58Alphabet : List Char :=
  ['1', '2', '3', '4', '5', '6', '7', '8', '9',
   'A', 'B', 'C', 'D', 'E', 'F', 'G', 'H', 'J', 'K', 'L', 'M', 'N',
   'P', 'Q', 'R', 'S', 'T', 'U', 'V', 'W', 'X', 'Y', 'Z',
   'a', 'b', 'c', 'd', 'e', 'f', 'g', 'h', 'i', 'j', 'k', 'm', 'n',
   'o', 'p', 'q', 'r', 's', 't', 'u', 'v', 'w', 'x', 'y', 'z']

/-- Character of a base-58 digit. -/
def b58Char (d : Nat) : Char := b58Alphabet.getD d '1'

/-- Index of a character in a character list, if present. -/
def charIdx (c : Char) : List Char → Option Nat
  | [] => none
  | x :: xs => if x = c then some 0 else (charIdx c xs).map (· + 1)

/-- Value of a base-58 character, `none` for characters outside the
alphabet. -/
def b58Val (c : Char) : Option Nat := charIdx c b58Alphabet

/-- How many leading elements of the list satisfy the predicate. -/
def leadingCount (p : α → Bool) : List α → Nat
  | [] => 0
  | a :: l => if p a then leadingCount p l + 1 else 0

/-- The list with its leading elements satisfying the predicate removed. -/
def dropLeading (p : α → Bool) : List α → List α
  | [] => []
  | a :: l => if p a then dropLeading p l else a :: l

/-- Map a fallible function over a list, failing if any element fails. -/
def optTraverse (f : α → Option β) : List α → Option (List β)
  | [] => some []
  | a :: l =>
    match f a, optTraverse f l with
    | some b, some bl => some (b :: bl)
    | _, _ => none

/-- Encode bytes as base-58 characters: one `'1'` per leading zero byte,
then the big-endian base-58 digits of the byte string's value. -/
def base58EncodeBytes (bytes : List Nat) : List Char :=
  List.replicate (leadingCount (· == 0) bytes) '1' ++
    ((natToDigits 58 (Nat.ofDigits 256 bytes.reverse)).reverse.map b58Char)

/-- Decode base-58 characters back to bytes: every character must be in
the alphabet; leading `'1'`s become leading zero bytes and the rest is
read as a big-endian base-58 number. -/
def base58DecodeChars (cs : List Char) : Option (List Nat) :=
  (optTraverse b58Val cs).map fun vals =>
    List.replicate (leadingCount (· == '1') cs) 0 ++
      (natToDigits 256 (Nat.ofDigits 58 vals.reverse)).reverse

/-- Base-58 encoding, as the string the Rust code passes around. -/
def base58EncodeString (bytes : List Nat) : String :=
  String.mk (base58EncodeBytes bytes)

/-- Base-58 decoding of a string into bytes. -/
def base58DecodeString (s : String) : Option (List Nat) :=
  base58DecodeChars s.data

/-- Every base-58 digit maps to an alphabet character that maps back to
the digit. -/
theorem b58Val_b58Char : ∀ d : Fin 58, b58Val (b58Char d.val) = some d.val := by
  decide

/-- Only the digit `0` is rendered as `'1'`. -/
theorem b58Char_ne_one : ∀ d : Fin 58, d.val ≠ 0 → b58Char d.val ≠ '1' := by
  decide

/-- The alphabet's first character decodes to the digit `0`. -/
theorem b58Val_one : b58Val '1' = some 0 := by decide

/-- `leadingCount` over a block of satisfying elements adds the block's
length. -/
theorem leadingCount_replicate_append {p : α → Bool} {a : α} (ha : p a = true)
    (z : Nat) (l : List α) :
    leadingCount p (List.replicate z a ++ l) = z + leadingCount p l := by
  induction z with
  | zero => simp
  | succ z ih =>
    simp only [List.replicate_succ, List.cons_append, leadingCount, ha,
      if_true, List.append_eq, ih]
    omega

/-- `leadingCount` of a constant block is the block's length. -/
theorem leadingCount_replicate {p : α → Bool} {a : α} (ha : p a = true)
    (z : Nat) : leadingCount p (List.replicate z a) = z := by
  have h := leadingCount_replicate_append ha z []
  simpa [leadingCount] using h

/-- `leadingCount` of a list starting with a failing element is zero. -/
theorem leadingCount_cons_false {p : α → Bool} {a : α} (ha : p a = false)
    (l : List α) : leadingCount p (a :: l) = 0 := by
  simp [leadingCount, ha]

/-- Splitting a list at its leading zeros reconstructs it, for a predicate
that holds only at `a`. -/
theorem replicate_append_dropLeading {p : α → Bool} {a : α}
    (hpa : ∀ x, p x = true → x = a) (l : List α) :
    List.replicate (leadingCount p l) a ++ dropLeading p l = l := by
  induction l with
  | nil => rfl
  | cons x xs ih =>
    by_cases hx : p x
    · obtain rfl : x = a := hpa x hx
      simp only [leadingCount, dropLeading, hx, if_true, List.replicate_succ,
        List.cons_append, List.append_eq, ih]
    · simp only [leadingCount, dropLeading, eq_false_of_ne_true hx, if_false,
        Bool.false_eq_true, List.replicate_zero, List.nil_append]

/-- The head of the remainder after dropping leading elements fails the
predicate. -/
theorem head?_dropLeading {p : α → Bool} (l : List α) :
    dropLeading p l = [] ∨
      ∃ x xs, dropLeading p l = x :: xs ∧ p x = false := by
  induction l with
  | nil => exact Or.inl rfl
  | cons x xs ih =>
    by_cases hx : p x
    · simpa only [dropLeading, hx, if_true] using ih
    · exact Or.inr ⟨x, xs, by simp [dropLeading, hx], eq_false_of_ne_true hx⟩

/-- Elements surviving `dropLeading` were in the original list. -/
theorem mem_dropLeading {p : α → Bool} {l : List α} {x : α}
    (hx : x ∈ dropLeading p l) : x ∈ l := by
  induction l with
  | nil => simp [dropLeading] at hx
  | cons a as ih =>
    by_cases ha : p a
    · simp only [dropLeading, ha, if_true] at hx
      exact List.mem_cons_of_mem a (ih hx)
    · simpa only [dropLeading, ha, if_false] using hx

/-- `optTraverse` distributes over append when both halves succeed. -/
theorem optTraverse_append {f : α → Option β} {l1 l2 : List α}
    {m1 m2 : List β} (h1 : optTraverse f l1 = some m1)
    (h2 : optTraverse f l2 = some m2) :
    optTraverse f (l1 ++ l2) = some (m1 ++ m2) := by
  induction l1 generalizing m1 with
  | nil =>
    simp only [optTraverse] at h1
    cases h1; simpa using h2
  | cons a l ih =>
    simp only [List.cons_append, optTraverse, List.append_eq] at h1 ⊢
    cases hfa : f a with
    | none => rw [hfa] at h1; exact absurd h1 (by simp)
    | some b =>
      rw [hfa] at h1
      cases htl : optTraverse f l with
      | none => rw [htl] at h1; exact absurd h1 (by simp)
      | some bl =>
        rw [htl] at h1
        obtain rfl : b :: bl = m1 := by simpa using h1
        rw [ih htl]
        rfl

/-- `optTraverse` over a constant block. -/
theorem optTraverse_replicate {f : α → Option β} {a : α} {b : β}
    (hab : f a = some b) (z : Nat) :
    optTraverse f (List.replicate z a) = some (List.replicate z b) := by
  induction z with
  | zero => rfl
  | succ z ih => simp [List.replicate_succ, optTraverse, hab, ih]

/-- `optTraverse` inverts a `map` when the function inverts on every
element. -/
theorem optTraverse_map {f : α → Option β} {g : β → α} {l : List β}
    (h : ∀ x ∈ l, f (g x) = some x) :
    optTraverse f (l.map g) = some l := by
  induction l with
  | nil => rfl
  | cons x xs ih =>
    simp only [List.map_cons, optTraverse, h x (List.mem_cons_self x xs),
      ih (fun y hy => h y (List.mem_cons_of_mem x hy))]

/-- `Nat.ofDigits` ignores trailing zero digits. -/
theorem ofDigits_append_replicate_zero (b : Nat) (L : List Nat) (z : Nat) :
    Nat.ofDigits b (L ++ List.replicate z 0) = Nat.ofDigits b L := by
  have hz : (Nat.ofDigits b (List.replicate z 0) : Nat) = 0 := by
    induction z with
    | zero => rfl
    | succ z ih => simp [List.replicate_succ, Nat.ofDigits_cons, ih]
  rw [Nat.ofDigits_append, hz, Nat.mul_zero, Nat.add_zero]

/-- Decoding a base-58 encoding recovers the original byte string. -/
theorem base58DecodeChars_base58EncodeBytes (bytes : List Nat)
    (hb : ∀ b ∈ bytes, b < 256) :
    base58DecodeChars (base58EncodeBytes bytes) = some bytes := by
  have hdig58 : ∀ n, natToDigits 58 n = Nat.digits 58 n := fun n =>
    natToDigits_eq_digits 58 n (by norm_num)
  have hdig256 : ∀ n, natToDigits 256 n = Nat.digits 256 n := fun n =>
    natToDigits_eq_digits 256 n (by norm_num)
  have hsplit : List.replicate (leadingCount (· == 0) bytes) 0 ++
      dropLeading (· == 0) bytes = bytes :=
    replicate_append_dropLeading (fun x hx => by simpa using hx) bytes
  have hval : Nat.ofDigits 256 bytes.reverse =
      Nat.ofDigits 256 (dropLeading (· == 0) bytes).reverse := by
    conv_lhs => rw [← hsplit]
    rw [List.reverse_append, List.reverse_replicate,
      ofDigits_append_replicate_zero]
  have hdlt : ∀ d ∈ (Nat.digits 58
      (Nat.ofDigits 256 (dropLeading (· == 0) bytes).reverse)).reverse,
      d < 58 := fun d hd =>
    Nat.digits_lt_base (by norm_num) (List.mem_reverse.mp hd)
  have htrav : optTraverse b58Val (base58EncodeBytes bytes) =
      some (List.replicate (leadingCount (· == 0) bytes) 0 ++
        (Nat.digits 58
          (Nat.ofDigits 256 (dropLeading (· == 0) bytes).reverse)).reverse) := by
    unfold base58EncodeBytes
    rw [hdig58, hval]
    exact optTraverse_append (optTraverse_replicate b58Val_one _)
      (optTraverse_map fun d hd => b58Val_b58Char ⟨d, hdlt d hd⟩)
  have hcount : leadingCount (· == '1') (base58EncodeBytes bytes) =
      leadingCount (· == 0) bytes := by
    unfold base58EncodeBytes
    rw [hdig58, hval]
    rcases Nat.eq_zero_or_pos
        (Nat.ofDigits 256 (dropLeading (· == 0) bytes).reverse) with h0 | hpos
    · rw [h0]
      simp only [Nat.digits_zero, List.reverse_nil, List.map_nil,
        List.append_nil]
      exact leadingCount_replicate (by simp) _
    · have hne : (Nat.digits 58
          (Nat.ofDigits 256 (dropLeading (· == 0) bytes).reverse)).reverse
          ≠ [] := by
        simp [Nat.digits_ne_nil_iff_ne_zero, Nat.pos_iff_ne_zero.mp hpos]
      obtain ⟨d0, dtl, hcons⟩ := List.exists_cons_of_ne_nil hne
      have hlast : (Nat.digits 58
          (Nat.ofDigits 256 (dropLeading (· == 0) bytes).reverse)).getLast? =
          some d0 := by
        rw [← List.head?_reverse, hcons]; rfl
      have hd0ne : d0 ≠ 0 := by
        have hnz := Nat.getLast_digit_ne_zero 58
          (Nat.pos_iff_ne_zero.mp hpos)
        rw [List.getLast?_eq_getLast _
          (Nat.digits_ne_nil_iff_ne_zero.mpr (Nat.pos_iff_ne_zero.mp hpos))]
          at hlast
        intro h
        injection hlast with h1
        exact hnz (h1.trans h)
      have hd0lt : d0 < 58 := hdlt d0 (by rw [hcons]; exact List.mem_cons_self _ _)
      rw [hcons]
      rw [List.map_cons,
        leadingCount_replicate_append (by simp) _
          (b58Char d0 :: dtl.map b58Char),
        leadingCount_cons_false
          (by simpa using b58Char_ne_one ⟨d0, hd0lt⟩ hd0ne)]
      omega
  rw [base58DecodeChars, htrav, Option.map_some', hcount, hdig256]
  rw [List.reverse_append, List.reverse_replicate, List.reverse_reverse,
    ofDigits_append_replicate_zero, Nat.ofDigits_digits]
  rcases head?_dropLeading (p := (· == 0)) bytes with hnil | ⟨x, xs, hcons, hxne⟩
  · rw [hnil]
    rw [hnil] at hsplit
    simp only [Nat.ofDigits_nil, List.reverse_nil, Nat.digits_zero]
    simpa using hsplit
  · have hx0 : x ≠ 0 := by simpa using hxne
    have hw1 : ∀ l ∈ (dropLeading (· == 0) bytes).reverse, l < 256 :=
      fun l hl => hb l (mem_dropLeading (List.mem_reverse.mp hl))
    have hw2 : ∀ h : (dropLeading (· == 0) bytes).reverse ≠ [],
        ((dropLeading (· == 0) bytes).reverse).getLast h ≠ 0 := by
      intro h
      have hl? : ((dropLeading (· == 0) bytes).reverse).getLast? = some x := by
        rw [List.getLast?_reverse, hcons]; rfl
      rw [List.getLast?_eq_getLast _ h] at hl?
      intro hcontra
      injection hl? with h1
      exact hx0 (h1.symm.trans hcontra)
    rw [Nat.digits_ofDigits 256 (by norm_num) _ hw1 hw2, List.reverse_reverse]
    exact congrArg some hsplit

/-! ## Base-64 text codec

Model of the `base64` crate (standard alphabet, `=` padding): three bytes
become four sextet characters; a trailing group of one or two bytes is
padded, and the decoder rejects non-canonical padding bits. -/

/-- The standard base-64 alphabet. -/
def b64Alphabet : List Char :=
  ['A', 'B', 'C', 'D', 'E', 'F', 'G', 'H', 'I', 'J', 'K', 'L', 'M',
   'N', 'O', 'P', 'Q', 'R', 'S', 'T', 'U', 'V', 'W', 'X', 'Y', 'Z',
   'a', 'b', 'c', 'd', 'e', 'f', 'g', 'h', 'i', 'j', 'k', 'l', 'm',
   'n', 'o', 'p', 'q', 'r', 's', 't', 'u', 'v', 'w', 'x', 'y', 'z',
   '0', '1', '2', '3', '4', '5', '6', '7', '8', '9', '+', '/']

/-- Character of a base-64 sextet. -/
def b64Char (d : Nat) : Char := b64Alphabet.getD d 'A'

/-- Value of a base-64 character, `none` for characters outside the
alphabet (in particular for the padding character). -/
def b64Val (c : Char) : Option Nat := charIdx c b64Alphabet

/-- Encode bytes in base 64, three bytes per four characters, padding the
final group with `'='`. -/
def base64EncodeBytes : List Nat → List Char
  | [] => []
  | [a] => [b64Char (a / 4), b64Char (a % 4 * 16), '=', '=']
  | [a, b] =>
    [b64Char (a / 4), b64Char (a % 4 * 16 + b / 16), b64Char (b % 16 * 4), '=']
  | a :: b :: c :: rest =>
    b64Char (a / 4) :: b64Char (a % 4 * 16 + b / 16) ::
      b64Char (b % 16 * 4 + c / 64) :: b64Char (c % 64) ::
        base64EncodeBytes rest

/-- Decode base-64 characters, requiring canonical padding: `'='` only in
the final four-character group, and zero trailing bits. -/
def base64DecodeChars : List Char → Option (List Nat)
  | [] => some []
  | c1 :: c2 :: c3 :: c4 :: rest =>
    match b64Val c1, b64Val c2 with
    | some v1, some v2 =>
      if c3 = '=' then
        if c4 = '=' ∧ rest = [] ∧ v2 % 16 = 0 then
          some [v1 * 4 + v2 / 16]
        else none
      else
        match b64Val c3 with
        | some v3 =>
          if c4 = '=' then
            if rest = [] ∧ v3 % 4 = 0 then
              some [v1 * 4 + v2 / 16, v2 % 16 * 16 + v3 / 4]
            else none
          else
            match b64Val c4, base64DecodeChars rest with
            | some v4, some bs =>
              some ((v1 * 4 + v2 / 16) :: (v2 % 16 * 16 + v3 / 4) ::
                (v3 % 4 * 64 + v4) :: bs)
            | _, _ => none
        | none => none
    | _, _ => none
  | _ => none

/-- Base-64 encoding, as the string the Rust code passes around. -/
def base64EncodeString (bytes : List Nat) : String :=
  String.mk (base64EncodeBytes bytes)

/-- Base-64 decoding of a string into bytes. -/
def base64DecodeString (s : String) : Option (List Nat) :=
  base64DecodeChars s.data

/-- Every base-64 sextet maps to an alphabet character that maps back to
the sextet. -/
theorem b64Val_b64Char {d : Nat} (h : d < 64) :
    b64Val (b64Char d) = some d := by
  have : ∀ d : Fin 64, b64Val (b64Char d.val) = some d.val := by decide
  exact this ⟨d, h⟩

/-- No sextet is rendered as the padding character. -/
theorem b64Char_ne_pad {d : Nat} (h : d < 64) : ¬ b64Char d = '=' := by
  have : ∀ d : Fin 64, ¬ b64Char d.val = '=' := by decide
  exact this ⟨d, h⟩

/-- Decoding a base-64 encoding recovers the original byte string. -/
theorem base64DecodeChars_base64EncodeBytes (bytes : List Nat)
    (hb : ∀ b ∈ bytes, b < 256) :
    base64DecodeChars (base64EncodeBytes bytes) = some bytes := by
  induction bytes using base64EncodeBytes.induct with
  | case1 => simp [base64EncodeBytes, base64DecodeChars]
  | case2 a =>
    have ha : a < 256 := hb a (by simp)
    simp only [base64EncodeBytes, base64DecodeChars,
      b64Val_b64Char (show a / 4 < 64 by omega),
      b64Val_b64Char (show a % 4 * 16 < 64 by omega)]
    rw [if_pos trivial,
      if_pos (⟨trivial, trivial, by omega⟩ :
        True ∧ True ∧ a % 4 * 16 % 16 = 0)]
    have h1 : a / 4 * 4 + a % 4 * 16 / 16 = a := by omega
    rw [h1]
  | case3 a b =>
    have ha : a < 256 := hb a (by simp)
    have hbb : b < 256 := hb b (by simp)
    simp only [base64EncodeBytes, base64DecodeChars,
      b64Val_b64Char (show a / 4 < 64 by omega),
      b64Val_b64Char (show a % 4 * 16 + b / 16 < 64 by omega),
      b64Val_b64Char (show b % 16 * 4 < 64 by omega),
      b64Char_ne_pad (show b % 16 * 4 < 64 by omega)]
    rw [if_pos trivial,
      if_pos (⟨trivial, by omega⟩ : True ∧ b % 16 * 4 % 4 = 0)]
    have h1 : a / 4 * 4 + (a % 4 * 16 + b / 16) / 16 = a := by omega
    have h2 : (a % 4 * 16 + b / 16) % 16 * 16 + b % 16 * 4 / 4 = b := by omega
    rw [h1, h2]
    simp
  | case4 a b c rest ih =>
    have ha : a < 256 := hb a (by simp)
    have hbb : b < 256 := hb b (by simp)
    have hc : c < 256 := hb c (by simp)
    have hrest : ∀ x ∈ rest, x < 256 := fun x hx =>
      hb x (by simp [hx])
    simp only [base64EncodeBytes, base64DecodeChars,
      b64Val_b64Char (show a / 4 < 64 by omega),
      b64Val_b64Char (show a % 4 * 16 + b / 16 < 64 by omega),
      b64Val_b64Char (show b % 16 * 4 + c / 64 < 64 by omega),
      b64Val_b64Char (show c % 64 < 64 by omega),
      b64Char_ne_pad (show b % 16 * 4 + c / 64 < 64 by omega),
      b64Char_ne_pad (show c % 64 < 64 by omega)]
    rw [ih hrest]
    have h1 : a / 4 * 4 + (a % 4 * 16 + b / 16) / 16 = a := by omega
    have h2 : (a % 4 * 16 + b / 16) % 16 * 16 +
      (b % 16 * 4 + c / 64) / 4 = b := by omega
    have h3 : (b % 16 * 4 + c / 64) % 4 * 64 + c % 64 = c := by omega
    rw [h1, h2]
    simp [h3]

/-! ## Data model

Shallow embedding of the internal transaction model from `solana_sdk`
(whose source is not part of this repository): pubkeys, signatures and
hashes are fixed-width byte arrays, embedded as their numeric value with
an explicit width bound; their display form is the base-58 rendering of
their bytes, per the specification ("account key stringified (base-58)"). -/

/-- A 32-byte account identifier, as its numeric value. -/
abbrev Pubkey : Type := Nat

/-- A 64-byte signature, as its numeric value. -/
abbrev Signature : Type := Nat

/-- A 32-byte hash, as its numeric value. -/
abbrev Hash : Type := Nat

/-- The big-endian 32-byte rendering of a pubkey. -/
def Pubkey.bytes (p : Pubkey) : List Nat := (natToBytesLE 32 p).reverse

/-- Modelled from the spec: a pubkey displays as the base-58 encoding of
its 32 bytes. -/
def Pubkey.toBase58 (p : Pubkey) : String := base58EncodeString p.bytes

/-- Modelled from the spec: a signature displays as the base-58 encoding
of its 64 bytes. -/
def Signature.toBase58 (s : Signature) : String :=
  base58EncodeString ((natToBytesLE 64 s).reverse)

/-- Modelled from the spec: a hash displays as the base-58 encoding of
its 32 bytes. -/
def Hash.toBase58 (h : Hash) : String :=
  base58EncodeString ((natToBytesLE 32 h).reverse)

/-- `MessageHeader` of `solana_sdk` (spec section 3): the three positional
role counts. -/
structure MessageHeader where
  num_required_signatures : Nat
  num_readonly_signed_accounts : Nat
  num_readonly_unsigned_accounts : Nat
deriving DecidableEq, Repr

/-- `CompiledInstruction` of `solana_sdk` (spec section 3): an index to
the program account, ordered account indices, and an opaque data payload.
All three numeric kinds are `u8`-valued in the source. -/
structure CompiledInstruction where
  program_id_index : Nat
  accounts : List Nat
  data : List Nat
deriving DecidableEq, Repr

/-- `CompiledInstruction::program_id`: resolve the program account key by
its index (the source indexes the slice directly; out-of-range indices
are a precondition violation, embedded here with a default). -/
def CompiledInstruction.program_id (ix : CompiledInstruction)
    (account_keys : List Pubkey) : Pubkey :=
  account_keys.getD ix.program_id_index 0

/-- `Message` of `solana_sdk` (spec section 3). -/
structure Message where
  header : MessageHeader
  account_keys : List Pubkey
  recent_blockhash : Hash
  instructions : List CompiledInstruction
deriving DecidableEq, Repr

/-- `Transaction` of `solana_sdk`: signatures plus the signed message. -/
structure Transaction where
  signatures : List Signature
  message : Message
deriving DecidableEq, Repr

/-- The typed execution error of `solana_sdk`, opaque to this layer;
embedded as an error code. -/
abbrev TransactionError : Type := Nat

/-- `Result<(), TransactionError>` of the source. -/
abbrev TxResult : Type := Except TransactionError Unit

/-- `Result::err`: the error of a failed result, `none` on success. -/
def txResultErr : TxResult → Option TransactionError
  | .ok _ => none
  | .error e => some e

/-! ## Canonical binary serialization of a transaction

Modelled from the spec: the "canonical binary serialization of the whole
transaction (signatures + message)" performed by `bincode`, whose source
is not part of this repository.  Sequences carry an 8-byte little-endian
length; `u8` fields are single bytes; pubkeys, hashes and signatures are
fixed-width. -/

/-- A `u8` field: one byte. -/
def serU8 (n : Nat) : List Nat := [n]

/-- Serialize one compiled instruction. -/
def serCompiledInstruction (ix : CompiledInstruction) : List Nat :=
  serU8 ix.program_id_index ++ serListWith serU8 ix.accounts ++
    serListWith serU8 ix.data

/-- Serialize a message header. -/
def serMessageHeader (h : MessageHeader) : List Nat :=
  serU8 h.num_required_signatures ++ serU8 h.num_readonly_signed_accounts ++
    serU8 h.num_readonly_unsigned_accounts

/-- Serialize a message. -/
def serMessage (m : Message) : List Nat :=
  serMessageHeader m.header ++ serListWith (natToBytesLE 32) m.account_keys ++
    natToBytesLE 32 m.recent_blockhash ++
    serListWith serCompiledInstruction m.instructions

/-- Canonical binary serialization of a whole transaction. -/
def bincodeSerializeTransaction (t : Transaction) : List Nat :=
  serListWith (natToBytesLE 64) t.signatures ++ serMessage t.message

/-- Parse one byte. -/
def pU8 : ByteParser Nat := pFixedNat 1

/-- Parse one compiled instruction. -/
def pCompiledInstruction : ByteParser CompiledInstruction := fun bs =>
  match pU8 bs with
  | .ok (pid, bs1) =>
    match pList pU8 bs1 with
    | .ok (accts, bs2) =>
      match pList pU8 bs2 with
      | .ok (dat, bs3) => .ok (⟨pid, accts, dat⟩, bs3)
      | .error e => .error e
    | .error e => .error e
  | .error e => .error e

/-- Parse a message header. -/
def pMessageHeader : ByteParser MessageHeader := fun bs =>
  match pU8 bs with
  | .ok (a, bs1) =>
    match pU8 bs1 with
    | .ok (b, bs2) =>
      match pU8 bs2 with
      | .ok (c, bs3) => .ok (⟨a, b, c⟩, bs3)
      | .error e => .error e
    | .error e => .error e
  | .error e => .error e

/-- Parse a message. -/
def pMessage : ByteParser Message := fun bs =>
  match pMessageHeader bs with
  | .ok (h, bs1) =>
    match pList (pFixedNat 32) bs1 with
    | .ok (keys, bs2) =>
      match pFixedNat 32 bs2 with
      | .ok (bh, bs3) =>
        match pList pCompiledInstruction bs3 with
        | .ok (ixs, bs4) => .ok (⟨h, keys, bh, ixs⟩, bs4)
        | .error e => .error e
      | .error e => .error e
    | .error e => .error e
  | .error e => .error e

/-- Parse a whole transaction. -/
def pTransaction : ByteParser Transaction := fun bs =>
  match pList (pFixedNat 64) bs with
  | .ok (sigs, bs1) =>
    match pMessage bs1 with
    | .ok (m, bs2) => .ok (⟨sigs, m⟩, bs2)
    | .error e => .error e
  | .error e => .error e

/-- Canonical binary deserialization of a whole transaction, `none` on
any parse failure or trailing garbage. -/
def bincodeDeserializeTransaction (bs : List Nat) : Option Transaction :=
  match pTransaction bs with
  | .ok (t, []) => some t
  | _ => none

/-! ## Well-formedness of the internal model

The bounds the Rust types carry by construction (`u8` indices, fixed-width
keys and signatures, `usize` lengths), made explicit on the embedding. -/

/-- Machine-width bounds of a compiled instruction. -/
def CompiledInstruction.wf (ix : CompiledInstruction) : Prop :=
  ix.program_id_index < 256 ∧
    ix.accounts.length < 256 ^ 8 ∧ ix.data.length < 256 ^ 8 ∧
    (∀ a ∈ ix.accounts, a < 256) ∧ (∀ d ∈ ix.data, d < 256)

instance (ix : CompiledInstruction) : Decidable ix.wf := by
  unfold CompiledInstruction.wf; infer_instance

/-- Machine-width bounds of a message. -/
def Message.wf (m : Message) : Prop :=
  m.header.num_required_signatures < 256 ∧
    m.header.num_readonly_signed_accounts < 256 ∧
    m.header.num_readonly_unsigned_accounts < 256 ∧
    m.account_keys.length < 256 ^ 8 ∧
    (∀ k ∈ m.account_keys, k < 256 ^ 32) ∧
    m.recent_blockhash < 256 ^ 32 ∧
    m.instructions.length < 256 ^ 8 ∧
    ∀ ix ∈ m.instructions, ix.wf

instance (m : Message) : Decidable m.wf := by
  unfold Message.wf; infer_instance

/-- Machine-width bounds of a transaction. -/
def Transaction.wf (t : Transaction) : Prop :=
  t.signatures.length < 256 ^ 8 ∧
    (∀ s ∈ t.signatures, s < 256 ^ 64) ∧ t.message.wf

instance (t : Transaction) : Decidable t.wf := by
  unfold Transaction.wf; infer_instance

/-- A one-byte field parses back. -/
theorem pU8_serU8 (n : Nat) (rest : List Nat) :
    pU8 (serU8 n ++ rest) = .ok (n, rest) := by
  simp [pU8, serU8, pFixedNat]

/-- A compiled instruction parses back from its serialization. -/
theorem pCompiledInstruction_ser (ix : CompiledInstruction)
    (ha : ix.accounts.length < 256 ^ 8) (hd : ix.data.length < 256 ^ 8)
    (rest : List Nat) :
    pCompiledInstruction (serCompiledInstruction ix ++ rest) =
      .ok (ix, rest) := by
  obtain ⟨pid, accts, dat⟩ := ix
  simp only [serCompiledInstruction, List.append_assoc, pCompiledInstruction,
    pU8_serU8,
    pList_serListWith accts ha (fun a _ r => pU8_serU8 a r),
    pList_serListWith dat hd (fun d _ r => pU8_serU8 d r)]

/-- A message header parses back from its serialization. -/
theorem pMessageHeader_ser (h : MessageHeader) (rest : List Nat) :
    pMessageHeader (serMessageHeader h ++ rest) = .ok (h, rest) := by
  obtain ⟨a, b, c⟩ := h
  simp only [serMessageHeader, List.append_assoc, pMessageHeader, pU8_serU8]

/-- A message parses back from its serialization. -/
theorem pMessage_ser (m : Message) (hm : m.wf) (rest : List Nat) :
    pMessage (serMessage m ++ rest) = .ok (m, rest) := by
  obtain ⟨h, keys, bh, ixs⟩ := m
  obtain ⟨_, _, _, hkl, hks, hbh, hixl, hixs⟩ := hm
  simp only [serMessage, List.append_assoc, pMessage, pMessageHeader_ser,
    pList_serListWith keys hkl
      (fun k hk r => pFixedNat_natToBytesLE_of_lt (hks k hk) r),
    pFixedNat_natToBytesLE_of_lt hbh,
    pList_serListWith ixs hixl
      (fun ix hix r =>
        pCompiledInstruction_ser ix (hixs ix hix).2.1 (hixs ix hix).2.2.1 r)]

/-- A transaction parses back from its serialization. -/
theorem pTransaction_ser (t : Transaction) (ht : t.wf) (rest : List Nat) :
    pTransaction (bincodeSerializeTransaction t ++ rest) = .ok (t, rest) := by
  obtain ⟨sigs, m⟩ := t
  obtain ⟨hsl, hss, hm⟩ := ht
  simp only [bincodeSerializeTransaction, List.append_assoc, pTransaction,
    pList_serListWith sigs hsl
      (fun s hs r => pFixedNat_natToBytesLE_of_lt (hss s hs) r),
    pMessage_ser _ hm]

/-- Round trip of the canonical binary serialization. -/
theorem bincodeDeserialize_serialize (t : Transaction) (ht : t.wf) :
    bincodeDeserializeTransaction (bincodeSerializeTransaction t) = some t := by
  have h := pTransaction_ser t ht []
  rw [List.append_nil] at h
  rw [bincodeDeserializeTransaction, h]

/-- The canonical binary serialization of a well-formed transaction emits
only bytes. -/
theorem bincodeSerializeTransaction_lt (t : Transaction) (ht : t.wf) :
    ∀ b ∈ bincodeSerializeTransaction t, b < 256 := by
  obtain ⟨sigs, m⟩ := t
  obtain ⟨hsl, hss, hm⟩ := ht
  obtain ⟨h, keys, bh, ixs⟩ := m
  obtain ⟨hh1, hh2, hh3, hkl, hks, hbh, hixl, hixs⟩ := hm
  intro b hb
  simp only [bincodeSerializeTransaction, serMessage, serMessageHeader,
    serU8, List.mem_append, List.append_assoc, List.cons_append,
    List.nil_append, List.mem_cons] at hb
  rcases hb with h1 | h1 | h1 | h1 | h1 | h1 | h1
  · exact serListWith_lt sigs (fun s hs => natToBytesLE_lt 64 s) b h1
  · exact h1 ▸ hh1
  · exact h1 ▸ hh2
  · exact h1 ▸ hh3
  · exact serListWith_lt keys (fun k hk => natToBytesLE_lt 32 k) b h1
  · exact natToBytesLE_lt 32 bh b h1
  · refine serListWith_lt ixs (fun ix hix => ?_) b h1
    intro x hx
    obtain ⟨hpid, _, _, hacc, hdat⟩ := hixs ix hix
    simp only [serCompiledInstruction, serU8, List.mem_append,
      List.cons_append, List.nil_append, List.mem_cons] at hx
    rcases hx with h2 | h2 | h2
    · exact h2 ▸ hpid
    · refine serListWith_lt ix.accounts (fun a ha2 y hy => ?_) x h2
      simp only [serU8, List.mem_singleton] at hy
      exact hy ▸ hacc a ha2
    · refine serListWith_lt ix.data (fun d hd2 y hy => ?_) x h2
      simp only [serU8, List.mem_singleton] at hy
      exact hy ▸ hdat d hd2

/-! ## Instruction parser registry

`parse_instruction::parse` is declared by the crate but its module source
is not under `src/`; it is modelled from the spec (section 4.2): a fixed
registry keyed by exact program identifier; unknown programs, unrecognized
discriminants and account-count mismatches fail with a typed error and no
partial result. -/

/-- Typed failure of the instruction parser (spec section 4.2). -/
inductive ParseError where
  | programNotParsable
  | instructionNotParsable
  | instructionKeyMismatch
deriving DecidableEq, Repr

/-- A structured, human-readable instruction: program, operation type,
and named-field information (spec section 4.2's `{program, type, info}`
triple). -/
structure ParsedInstruction where
  program : String
  instruction_type : String
  info : List (String × String)
deriving DecidableEq, Repr

/-- Modelled from the spec: the system program's well-known identifier
(the all-zero 32-byte key). -/
def systemProgramId : Pubkey := 0

/-- Modelled from the spec: one representative registered decoder (the
system program's): it requires a recognized leading discriminant and a
minimum account count, else fails with a typed error. -/
def parseSystem (instruction : CompiledInstruction)
    (account_keys : List Pubkey) : Except ParseError ParsedInstruction :=
  match instruction.data with
  | 2 :: _ =>
    if 2 ≤ instruction.accounts.length then
      .ok { program := "system"
            instruction_type := "transfer"
            info :=
              [("source",
                 (account_keys.getD (instruction.accounts.getD 0 0) 0).toBase58),
               ("destination",
                 (account_keys.getD (instruction.accounts.getD 1 0) 0).toBase58)] }
    else .error .instructionKeyMismatch
  | _ => .error .instructionNotParsable

/-- Modelled from the spec: the read-only registry mapping a program
identifier to its decoder; exact-match lookup. -/
def lookupParsableProgram (program_id : Pubkey) :
    Option (CompiledInstruction → List Pubkey →
      Except ParseError ParsedInstruction) :=
  if program_id = systemProgramId then some parseSystem else none

/-- `parse_instruction::parse` (modelled from the spec, section 4.2):
look up the decoder for the program and run it; unknown programs fail. -/
def parse_instruction.parse (program_id : Pubkey)
    (instruction : CompiledInstruction) (account_keys : List Pubkey) :
    Except ParseError ParsedInstruction :=
  match lookupParsableProgram program_id with
  | some decoder => decoder instruction account_keys
  | none => .error .programNotParsable

/-! ## Account role classifier and projections

`parse_accounts` is declared by the crate but its module source is not
under `src/`; modelled from the spec (section 4.1): positional bands
determine signer/writable. -/

/-- The public view of one account: pubkey string and its roles. -/
structure ParsedAccount where
  pubkey : String
  signer : Bool
  writable : Bool
deriving DecidableEq, Repr

/-- `parse_accounts` (modelled from the spec, section 4.1): classify each
account key of a message by position. `signer` iff the index is below
`num_required_signatures`; writable unless the index falls in one of the
two read-only bands. -/
def parse_accounts (message : Message) : List ParsedAccount :=
  (List.range message.account_keys.length).map fun i =>
    { pubkey := (message.account_keys.getD i 0).toBase58
      signer := decide (i < message.header.num_required_signatures)
      writable := decide
        (i < message.header.num_required_signatures -
            message.header.num_readonly_signed_accounts ∨
          (message.header.num_required_signatures ≤ i ∧
            i < message.account_keys.length -
              message.header.num_readonly_unsigned_accounts)) }

/-! ## UI instruction projections (source `transaction-status/src/lib.rs`) -/

/-- `UiCompiledInstruction`: raw projection of a compiled instruction. -/
structure UiCompiledInstruction where
  program_id_index : Nat
  accounts : List Nat
  data : String
deriving DecidableEq, Repr

/-- `From<&CompiledInstruction> for UiCompiledInstruction`. -/
def UiCompiledInstruction.fromCompiled (instruction : CompiledInstruction) :
    UiCompiledInstruction :=
  { program_id_index := instruction.program_id_index
    accounts := instruction.accounts
    data := base58EncodeString instruction.data }

/-- `UiPartiallyDecodedInstruction`: fallback projection with resolved
account addresses. -/
structure UiPartiallyDecodedInstruction where
  program_id : String
  accounts : List String
  data : String
deriving DecidableEq, Repr

/-- `UiPartiallyDecodedInstruction::from` (the source indexes
`account_keys` directly; out-of-range indices are a precondition
violation, embedded with a default). -/
def UiPartiallyDecodedInstruction.fromCompiled
    (instruction : CompiledInstruction) (account_keys : List Pubkey) :
    UiPartiallyDecodedInstruction :=
  { program_id :=
      (account_keys.getD instruction.program_id_index 0).toBase58
    accounts :=
      instruction.accounts.map fun i => (account_keys.getD i 0).toBase58
    data := base58EncodeString instruction.data }

/-- `UiParsedInstruction`. -/
inductive UiParsedInstruction where
  | parsed (value : ParsedInstruction)
  | partiallyDecoded (value : UiPartiallyDecodedInstruction)
deriving DecidableEq, Repr

/-- `UiInstruction`. -/
inductive UiInstruction where
  | compiled (value : UiCompiledInstruction)
  | parsed (value : UiParsedInstruction)
deriving DecidableEq, Repr

/-- `UiInstruction::parse`: try the registry decoder for the resolved
program id; on any parse failure, fall back to the partially decoded
projection. -/
def UiInstruction.parse (instruction : CompiledInstruction)
    (message : Message) : UiInstruction :=
  let program_id := instruction.program_id message.account_keys
  match parse_instruction.parse program_id instruction
      message.account_keys with
  | .ok parsed_instruction =>
    .parsed (.parsed parsed_instruction)
  | .error _ =>
    .parsed (.partiallyDecoded
      (UiPartiallyDecodedInstruction.fromCompiled instruction
        message.account_keys))

/-- `InnerInstructions`: instructions triggered by an outer instruction. -/
structure InnerInstructions where
  index : Nat
  instructions : List CompiledInstruction
deriving DecidableEq, Repr

/-- `UiInnerInstructions`. -/
structure UiInnerInstructions where
  index : Nat
  instructions : List UiInstruction
deriving DecidableEq, Repr

/-- `UiInnerInstructions::parse`: project each nested instruction through
the instruction parser against the outer message. -/
def UiInnerInstructions.parse (inner_instructions : InnerInstructions)
    (message : Message) : UiInnerInstructions :=
  { index := inner_instructions.index
    instructions := inner_instructions.instructions.map fun ix =>
      UiInstruction.parse ix message }

/-- `From<InnerInstructions> for UiInnerInstructions`: raw projection of
each nested instruction. -/
def UiInnerInstructions.fromInner (inner_instructions : InnerInstructions) :
    UiInnerInstructions :=
  { index := inner_instructions.index
    instructions := inner_instructions.instructions.map fun ix =>
      UiInstruction.compiled (UiCompiledInstruction.fromCompiled ix) }

/-! ## Status metadata (source `transaction-status/src/lib.rs`) -/

/-- Equality of execution results is decidable. -/
instance : DecidableEq TxResult
  | .ok (), .ok () => .isTrue rfl
  | .ok (), .error _ => .isFalse fun h => Except.noConfusion h
  | .error _, .ok () => .isFalse fun h => Except.noConfusion h
  | .error e, .error f =>
    if h : e = f then .isTrue (congrArg Except.error h)
    else .isFalse fun hc => h (by injection hc)

/-- `TransactionStatusMeta`: internal execution metadata. -/
structure TransactionStatusMeta where
  status : TxResult
  fee : Nat
  pre_balances : List Nat
  post_balances : List Nat
  inner_instructions : Option (List InnerInstructions)
  log_messages : Option (List String)
deriving DecidableEq, Repr

/-- `Default for TransactionStatusMeta`. -/
def TransactionStatusMeta.default : TransactionStatusMeta :=
  { status := .ok ()
    fee := 0
    pre_balances := []
    post_balances := []
    inner_instructions := none
    log_messages := none }

/-- `UiTransactionStatusMeta`: public projection with `err` promoted. -/
structure UiTransactionStatusMeta where
  err : Option TransactionError
  status : TxResult
  fee : Nat
  pre_balances : List Nat
  post_balances : List Nat
  inner_instructions : Option (List UiInnerInstructions)
  log_messages : Option (List String)
deriving DecidableEq, Repr

/-- `UiTransactionStatusMeta::parse`: project the metadata with inner
instructions parsed against the outer message. -/
def UiTransactionStatusMeta.parse (meta : TransactionStatusMeta)
    (message : Message) : UiTransactionStatusMeta :=
  { err := txResultErr meta.status
    status := meta.status
    fee := meta.fee
    pre_balances := meta.pre_balances
    post_balances := meta.post_balances
    inner_instructions := meta.inner_instructions.map fun ixs =>
      ixs.map fun ix => UiInnerInstructions.parse ix message
    log_messages := meta.log_messages }

/-- `From<TransactionStatusMeta> for UiTransactionStatusMeta`: raw
projection of the metadata. -/
def UiTransactionStatusMeta.fromMeta (meta : TransactionStatusMeta) :
    UiTransactionStatusMeta :=
  { err := txResultErr meta.status
    status := meta.status
    fee := meta.fee
    pre_balances := meta.pre_balances
    post_balances := meta.post_balances
    inner_instructions := meta.inner_instructions.map fun ixs =>
      ixs.map UiInnerInstructions.fromInner
    log_messages := meta.log_messages }

/-! ## Commitment (from `solana_sdk::commitment_config`, not under `src/`)

Modelled from the spec (section 4.6): a commitment configuration carries a
level; the default configuration is the "finalized/rooted" (max) level and
`recent` is the "seen at all" level. -/

/-- Commitment depth levels. -/
inductive CommitmentLevel where
  | max
  | recent
  | root
deriving DecidableEq, Repr

/-- A requested commitment configuration. -/
structure CommitmentConfig where
  commitment : CommitmentLevel
deriving DecidableEq, Repr

/-- `CommitmentConfig::default()`: the finalized/rooted (max) level. -/
def CommitmentConfig.default : CommitmentConfig := ⟨.max⟩

/-- `CommitmentConfig::recent()`. -/
def CommitmentConfig.recent : CommitmentConfig := ⟨.recent⟩

/-- `TransactionStatus` (source): slot, confirmation count (`none` means
rooted), legacy status and error fields. -/
structure TransactionStatus where
  slot : Nat
  confirmations : Option Nat
  status : TxResult
  err : Option TransactionError
deriving DecidableEq, Repr

/-- `TransactionStatus::satisfies_commitment` (source): true when the
default commitment is requested and the transaction is rooted, or when
the recent commitment is requested. -/
def TransactionStatus.satisfies_commitment (self : TransactionStatus)
    (commitment_config : CommitmentConfig) : Bool :=
  (decide (commitment_config = CommitmentConfig.default) &&
      self.confirmations.isNone) ||
    decide (commitment_config = CommitmentConfig.recent)

/-- `Reward` (source): pubkey, signed lamport delta, and the balance after
application. -/
structure Reward where
  pubkey : String
  lamports : Int
  post_balance : Nat
deriving DecidableEq, Repr

/-! ## The transaction codec (source `transaction-status/src/lib.rs`) -/

/-- `UiTransactionEncoding`: the five client-facing formats. -/
inductive UiTransactionEncoding where
  | binary
  | base64
  | base58
  | json
  | jsonParsed
deriving DecidableEq, Repr

/-- `UiRawMessage`: raw projection of a message. -/
structure UiRawMessage where
  header : MessageHeader
  account_keys : List String
  recent_blockhash : String
  instructions : List UiCompiledInstruction
deriving DecidableEq, Repr

/-- `UiParsedMessage`: parsed projection of a message. -/
structure UiParsedMessage where
  account_keys : List ParsedAccount
  recent_blockhash : String
  instructions : List UiInstruction
deriving DecidableEq, Repr

/-- `UiMessage`. -/
inductive UiMessage where
  | parsed (value : UiParsedMessage)
  | raw (value : UiRawMessage)
deriving DecidableEq, Repr

/-- `UiTransaction`: pretty JSON projection of a transaction. -/
structure UiTransaction where
  signatures : List String
  message : UiMessage
deriving DecidableEq, Repr

/-- `EncodedTransaction`: the wire union of the three output shapes. -/
inductive EncodedTransaction where
  | legacyBinary (blob : String)
  | binary (blob : String) (encoding : UiTransactionEncoding)
  | json (value : UiTransaction)
deriving DecidableEq, Repr

/-- `EncodedTransaction::encode` (source): serialize opaquely for the
binary formats; project the message for the JSON formats. -/
def EncodedTransaction.encode (transaction : Transaction)
    (encoding : UiTransactionEncoding) : EncodedTransaction :=
  match encoding with
  | .binary =>
    .legacyBinary
      (base58EncodeString (bincodeSerializeTransaction transaction))
  | .base58 =>
    .binary (base58EncodeString (bincodeSerializeTransaction transaction))
      .base58
  | .base64 =>
    .binary (base64EncodeString (bincodeSerializeTransaction transaction))
      .base64
  | .json =>
    .json
      { signatures := transaction.signatures.map Signature.toBase58
        message := .raw
          { header := transaction.message.header
            account_keys :=
              transaction.message.account_keys.map Pubkey.toBase58
            recent_blockhash :=
              transaction.message.recent_blockhash.toBase58
            instructions := transaction.message.instructions.map
              UiCompiledInstruction.fromCompiled } }
  | .jsonParsed =>
    .json
      { signatures := transaction.signatures.map Signature.toBase58
        message := .parsed
          { account_keys := parse_accounts transaction.message
            recent_blockhash :=
              transaction.message.recent_blockhash.toBase58
            instructions := transaction.message.instructions.map fun ix =>
              UiInstruction.parse ix transaction.message } }

/-- `EncodedTransaction::decode` (source): only the binary shapes decode;
base-decode the payload then deserialize, any failure giving `none`. -/
def EncodedTransaction.decode (self : EncodedTransaction) :
    Option Transaction :=
  match self with
  | .json _ => none
  | .legacyBinary blob =>
    (base58DecodeString blob).bind fun bytes =>
      bincodeDeserializeTransaction bytes
  | .binary blob encoding =>
    match encoding with
    | .base58 =>
      (base58DecodeString blob).bind fun bytes =>
        bincodeDeserializeTransaction bytes
    | .base64 =>
      (base64DecodeString blob).bind fun bytes =>
        bincodeDeserializeTransaction bytes
    | .binary => none
    | .json => none
    | .jsonParsed => none

/-- `TransactionStatusMeta::encode` (source): parse inner instructions
only for the JSON-parsed format; all other formats project raw. -/
def TransactionStatusMeta.encode (self : TransactionStatusMeta)
    (encoding : UiTransactionEncoding) (message : Message) :
    UiTransactionStatusMeta :=
  match encoding with
  | .jsonParsed => UiTransactionStatusMeta.parse self message
  | _ => UiTransactionStatusMeta.fromMeta self

/-! ## Legacy deserialization with defaulting trailing fields

`solana_sdk::deserialize_utils::default_on_eof` is not under `src/`;
modelled from the spec (section 7): a field whose deserialization fails
because the input ended is given its default value (consuming nothing
further), while any other failure still fails the record. -/

/-- `default_on_eof`: run the field parser; on end-of-input, produce the
default. -/
def default_on_eof (p : ByteParser α) (d : α) : ByteParser α := fun bs =>
  match p bs with
  | .ok r => .ok r
  | .error .eof => .ok (d, [])
  | .error .invalid => .error .invalid

/-- Serialize an execution result (enum tag, then the error code). -/
def serTxResult : TxResult → List Nat
  | .ok () => natToBytesLE 4 0
  | .error e => natToBytesLE 4 1 ++ natToBytesLE 4 e

/-- Parse an execution result. -/
def pTxResult : ByteParser TxResult := fun bs =>
  match pFixedNat 4 bs with
  | .ok (0, rest) => .ok (.ok (), rest)
  | .ok (1, rest) =>
    match pFixedNat 4 rest with
    | .ok (e, rest2) => .ok (.error e, rest2)
    | .error e => .error e
  | .ok (_, _) => .error .invalid
  | .error e => .error e

/-- Serialize an optional value (one-byte tag, then the payload). -/
def serOption (f : α → List Nat) : Option α → List Nat
  | none => [0]
  | some a => 1 :: f a

/-- Parse an optional value. -/
def pOption (p : ByteParser α) : ByteParser (Option α) := fun bs =>
  match pU8 bs with
  | .ok (0, rest) => .ok (none, rest)
  | .ok (1, rest) =>
    match p rest with
    | .ok (a, rest2) => .ok (some a, rest2)
    | .error e => .error e
  | .ok (_, _) => .error .invalid
  | .error e => .error e

/-- Serialize a string (length, then one byte per character). -/
def serString (s : String) : List Nat :=
  natToBytesLE 8 s.length ++ s.data.map Char.toNat

/-- Parse a string. -/
def pString : ByteParser String := fun bs =>
  match pFixedNat 8 bs with
  | .ok (n, rest) =>
    match pRaw n rest with
    | .ok (cs, rest2) => .ok (String.mk (cs.map Char.ofNat), rest2)
    | .error e => .error e
  | .error e => .error e

/-- Serialize an inner-instruction group. -/
def serInnerInstructions (inner : InnerInstructions) : List Nat :=
  serU8 inner.index ++ serListWith serCompiledInstruction inner.instructions

/-- Parse an inner-instruction group. -/
def pInnerInstructions : ByteParser InnerInstructions := fun bs =>
  match pU8 bs with
  | .ok (i, rest) =>
    match pList pCompiledInstruction rest with
    | .ok (ixs, rest2) => .ok (⟨i, ixs⟩, rest2)
    | .error e => .error e
  | .error e => .error e

/-- Serialize a 64-bit signed integer (two's complement, little endian). -/
def serI64 (v : Int) : List Nat := natToBytesLE 8 (v % (2 ^ 64 : Int)).toNat

/-- Parse a 64-bit signed integer. -/
def pI64 : ByteParser Int := fun bs =>
  match pFixedNat 8 bs with
  | .ok (n, rest) =>
    .ok (if n < 2 ^ 63 then (n : Int) else (n : Int) - 2 ^ 64, rest)
  | .error e => .error e

/-- Parse a `TransactionStatusMeta` record: the four mandatory fields,
then the two optional trailing fields, which default to `none` when the
stream has already ended (matching the `default_on_eof` serde attribute
on the source's struct). -/
def pTransactionStatusMeta : ByteParser TransactionStatusMeta := fun bs =>
  match pTxResult bs with
  | .ok (status, bs1) =>
    match pFixedNat 8 bs1 with
    | .ok (fee, bs2) =>
      match pList (pFixedNat 8) bs2 with
      | .ok (pre, bs3) =>
        match pList (pFixedNat 8) bs3 with
        | .ok (post, bs4) =>
          match default_on_eof (pOption (pList pInnerInstructions))
              none bs4 with
          | .ok (inner, bs5) =>
            match default_on_eof (pOption (pList pString)) none bs5 with
            | .ok (logs, bs6) =>
              .ok (⟨status, fee, pre, post, inner, logs⟩, bs6)
            | .error e => .error e
          | .error e => .error e
        | .error e => .error e
      | .error e => .error e
    | .error e => .error e
  | .error e => .error e

/-- Deserialize a `TransactionStatusMeta` from a byte stream. -/
def deserializeTransactionStatusMeta (bs : List Nat) :
    Option TransactionStatusMeta :=
  match pTransactionStatusMeta bs with
  | .ok (m, _) => some m
  | .error _ => none

/-- Parse a `Reward` record: pubkey string and lamport delta, then the
trailing `post_balance`, which defaults to `0` when the stream has ended
(matching the `default_on_eof` serde attribute on the source's struct). -/
def pReward : ByteParser Reward := fun bs =>
  match pString bs with
  | .ok (pk, bs1) =>
    match pI64 bs1 with
    | .ok (lam, bs2) =>
      match default_on_eof (pFixedNat 8) 0 bs2 with
      | .ok (pb, bs3) => .ok (⟨pk, lam, pb⟩, bs3)
      | .error e => .error e
    | .error e => .error e
  | .error e => .error e

/-- Deserialize a `Reward` from a byte stream. -/
def deserializeReward (bs : List Nat) : Option Reward :=
  match pReward bs with
  | .ok (r, _) => some r
  | .error _ => none

/-- Width bound of a stored execution result. -/
def TxResult.wf : TxResult → Prop
  | .ok _ => True
  | .error e => e < 256 ^ 4

instance (s : TxResult) : Decidable s.wf := by
  unfold TxResult.wf
  cases s <;> infer_instance

/-- An execution result parses back from its serialization. -/
theorem pTxResult_ser (s : TxResult) (hs : s.wf) (rest : List Nat) :
    pTxResult (serTxResult s ++ rest) = .ok (s, rest) := by
  cases s with
  | ok u =>
    cases u
    simp only [serTxResult, pTxResult,
      pFixedNat_natToBytesLE_of_lt (show 0 < 256 ^ 4 by norm_num)]
  | error e =>
    have he : e < 256 ^ 4 := hs
    simp only [serTxResult, List.append_assoc, pTxResult,
      pFixedNat_natToBytesLE_of_lt (show 1 < 256 ^ 4 by norm_num),
      pFixedNat_natToBytesLE_of_lt he]

/-- A present optional value parses back from its serialization. -/
theorem pOption_ser_some {f : α → List Nat} {p : ByteParser α} {a : α}
    (h : ∀ rest, p (f a ++ rest) = .ok (a, rest)) (rest : List Nat) :
    pOption p (serOption f (some a) ++ rest) = .ok (some a, rest) := by
  simp only [serOption, List.cons_append, pOption, pU8, pFixedNat,
    List.append_eq, h rest]

/-- An absent optional value parses back from its serialization. -/
theorem pOption_ser_none {f : α → List Nat} {p : ByteParser α}
    (rest : List Nat) :
    pOption p (serOption f none ++ rest) = .ok (none, rest) := by
  simp only [serOption, List.cons_append, pOption, pU8, pFixedNat,
    List.append_eq, List.nil_append]

/-- A string parses back from its serialization. -/
theorem pString_serString (s : String) (hlen : s.length < 256 ^ 8)
    (rest : List Nat) :
    pString (serString s ++ rest) = .ok (s, rest) := by
  obtain ⟨cs⟩ := s
  have hlen2 : (cs.map Char.toNat).length = String.length ⟨cs⟩ :=
    List.length_map cs Char.toNat
  simp only [serString, pString, List.append_assoc,
    pFixedNat_natToBytesLE_of_lt hlen]
  rw [← hlen2, pRaw_append]
  simp [List.map_map, Function.comp_def]

/-- Serialization bounds of an inner-instruction group. -/
def InnerInstructions.wfSer (inner : InnerInstructions) : Prop :=
  inner.instructions.length < 256 ^ 8 ∧
    ∀ ix ∈ inner.instructions,
      ix.accounts.length < 256 ^ 8 ∧ ix.data.length < 256 ^ 8

instance (inner : InnerInstructions) : Decidable inner.wfSer := by
  unfold InnerInstructions.wfSer; infer_instance

/-- An inner-instruction group parses back from its serialization. -/
theorem pInnerInstructions_ser (inner : InnerInstructions)
    (hw : inner.wfSer) (rest : List Nat) :
    pInnerInstructions (serInnerInstructions inner ++ rest) =
      .ok (inner, rest) := by
  obtain ⟨i, ixs⟩ := inner
  obtain ⟨hl, hixs⟩ := hw
  simp only [serInnerInstructions, List.append_assoc, pInnerInstructions,
    pU8_serU8,
    pList_serListWith ixs hl
      (fun ix hix r =>
        pCompiledInstruction_ser ix (hixs ix hix).1 (hixs ix hix).2 r)]

/-- A 64-bit signed integer parses back from its serialization. -/
theorem pI64_serI64 (v : Int) (h1 : -(2 ^ 63) ≤ v) (h2 : v < 2 ^ 63)
    (rest : List Nat) :
    pI64 (serI64 v ++ rest) = .ok (v, rest) := by
  have hpow : (256 : Nat) ^ 8 = 18446744073709551616 := by norm_num
  have hm : (v % (2 ^ 64 : Int)).toNat < 256 ^ 8 := by
    rw [hpow]; omega
  simp only [serI64, pI64, pFixedNat_natToBytesLE_of_lt hm]
  by_cases hc : (v % (2 ^ 64 : Int)).toNat < 2 ^ 63
  · rw [if_pos hc]
    congr 2
    omega
  · rw [if_neg hc]
    congr 2
    omega

/-! ## Claims -/

/-- C1: for every machine-representable transaction `T`, decoding the
result of encoding `T` in the Base58 format yields `T`, and decoding the
result of encoding `T` in the Base64 format yields `T`
(`decode ∘ encode` is the identity for the Base58 and Base64 formats). -/
theorem claim_C1_encode_decode_roundtrip (t : Transaction) (ht : t.wf) :
    (EncodedTransaction.encode t .base58).decode = some t ∧
      (EncodedTransaction.encode t .base64).decode = some t := by
  have hbytes := bincodeSerializeTransaction_lt t ht
  constructor
  · simp only [EncodedTransaction.encode, EncodedTransaction.decode,
      base58DecodeString, base58EncodeString,
      base58DecodeChars_base58EncodeBytes _ hbytes, Option.some_bind]
    exact bincodeDeserialize_serialize t ht
  · simp only [EncodedTransaction.encode, EncodedTransaction.decode,
      base64DecodeString, base64EncodeString,
      base64DecodeChars_base64EncodeBytes _ hbytes, Option.some_bind]
    exact bincodeDeserialize_serialize t ht

/-- C1 witness: a concrete well-formed transaction round-trips through
both binary formats. -/
theorem claim_C1_witness :
    (EncodedTransaction.encode ⟨[5], ⟨⟨1, 0, 0⟩, [3, 0], 7, [⟨1, [0], [9]⟩]⟩⟩
        .base58).decode = some ⟨[5], ⟨⟨1, 0, 0⟩, [3, 0], 7, [⟨1, [0], [9]⟩]⟩⟩ ∧
      (EncodedTransaction.encode ⟨[5], ⟨⟨1, 0, 0⟩, [3, 0], 7, [⟨1, [0], [9]⟩]⟩⟩
        .base64).decode = some ⟨[5], ⟨⟨1, 0, 0⟩, [3, 0], 7, [⟨1, [0], [9]⟩]⟩⟩ :=
  claim_C1_encode_decode_roundtrip _ (by decide)

/-- C2: `decode` is a total function into `Option`: a payload string that
is not valid base-58/base-64 text, or whose decoded bytes fail the
canonical binary deserialization (truncated or corrupt), makes `decode`
return `none` rather than failing. -/
theorem claim_C2_decode_total_none_on_corrupt (s : String) :
    (base58DecodeString s = none →
      (EncodedTransaction.legacyBinary s).decode = none ∧
        (EncodedTransaction.binary s .base58).decode = none) ∧
    (base64DecodeString s = none →
      (EncodedTransaction.binary s .base64).decode = none) ∧
    (∀ bs, base58DecodeString s = some bs →
      bincodeDeserializeTransaction bs = none →
      (EncodedTransaction.legacyBinary s).decode = none ∧
        (EncodedTransaction.binary s .base58).decode = none) ∧
    (∀ bs, base64DecodeString s = some bs →
      bincodeDeserializeTransaction bs = none →
      (EncodedTransaction.binary s .base64).decode = none) := by
  refine ⟨fun h => ⟨?_, ?_⟩, fun h => ?_,
    fun bs h1 h2 => ⟨?_, ?_⟩, fun bs h1 h2 => ?_⟩ <;>
    simp [EncodedTransaction.decode, *]

/-- C2 witness: a non-alphabet base-58 payload, an invalid base-64
payload, and a payload whose bytes are a truncated binary record all
decode to `none`. -/
theorem claim_C2_witness :
    (EncodedTransaction.legacyBinary (String.mk ['0'])).decode = none ∧
      (EncodedTransaction.binary (String.mk ['!']) .base64).decode = none ∧
      (EncodedTransaction.legacyBinary (String.mk ['2'])).decode = none :=
  ⟨((claim_C2_decode_total_none_on_corrupt (String.mk ['0'])).1
      (by decide)).1,
    (claim_C2_decode_total_none_on_corrupt (String.mk ['!'])).2.1
      (by decide),
    ((claim_C2_decode_total_none_on_corrupt (String.mk ['2'])).2.2.1 [1]
      (by decide) (by decide)).1⟩

/-- C3: a syntactically valid compiled instruction whose program id has
no registered parser projects, in Parsed mode, to a partially decoded
instruction: resolved program id string, every account index resolved to
its pubkey string in order (same length), and base-58 data. -/
theorem claim_C3_unregistered_fallback (ix : CompiledInstruction)
    (m : Message) (hpid : ix.program_id_index < m.account_keys.length)
    (hacc : ∀ i ∈ ix.accounts, i < m.account_keys.length)
    (hreg : lookupParsableProgram (ix.program_id m.account_keys) = none) :
    UiInstruction.parse ix m =
      .parsed (.partiallyDecoded
        { program_id := m.account_keys[ix.program_id_index].toBase58
          accounts :=
            ix.accounts.map fun i => (m.account_keys.getD i 0).toBase58
          data := base58EncodeString ix.data }) ∧
      (ix.accounts.map fun i =>
          (m.account_keys.getD i 0).toBase58).length =
        ix.accounts.length ∧
      (ix.accounts.map fun i => (m.account_keys.getD i 0).toBase58) =
        ix.accounts.pmap
          (fun i h => (m.account_keys.get ⟨i, h⟩).toBase58) hacc := by
  refine ⟨?_, List.length_map _ _, ?_⟩
  · simp only [UiInstruction.parse, parse_instruction.parse, hreg,
      UiPartiallyDecodedInstruction.fromCompiled,
      List.getD_eq_getElem _ _ hpid]
  · have aux : ∀ (l : List Nat)
        (H : ∀ i ∈ l, i < m.account_keys.length),
        l.map (fun i => (m.account_keys.getD i 0).toBase58) =
          l.pmap (fun i h => (m.account_keys.get ⟨i, h⟩).toBase58) H := by
      intro l
      induction l with
      | nil => intro H; rfl
      | cons x xs ih =>
        intro H
        simp only [List.map_cons, List.pmap, List.get_eq_getElem,
          List.getD_eq_getElem _ _ (H x (List.mem_cons_self x xs))]
        rw [ih (fun i hi => H i (List.mem_cons_of_mem x hi))]
        rfl
    exact aux ix.accounts hacc

/-- C3 witness: a concrete instruction against an unregistered program id
projects to the expected partially decoded form. -/
theorem claim_C3_witness :
    UiInstruction.parse ⟨2, [0, 1], [7]⟩
        ⟨⟨1, 0, 1⟩, [3, 4, 5], 0, [⟨2, [0, 1], [7]⟩]⟩ =
      .parsed (.partiallyDecoded
        { program_id := ([3, 4, 5] : List Pubkey)[2].toBase58
          accounts := [0, 1].map fun i =>
            (([3, 4, 5] : List Pubkey).getD i 0).toBase58
          data := base58EncodeString [7] }) :=
  (claim_C3_unregistered_fallback ⟨2, [0, 1], [7]⟩
    ⟨⟨1, 0, 1⟩, [3, 4, 5], 0, [⟨2, [0, 1], [7]⟩]⟩ (by decide)
    (by decide) rfl).1

/-- C4: encoding in the legacy Binary format and in the Base58 format
produce the same payload string; only the explicit format tag differs. -/
theorem claim_C4_legacy_base58_parity (t : Transaction) :
    ∃ payload : String,
      EncodedTransaction.encode t .binary = .legacyBinary payload ∧
        EncodedTransaction.encode t .base58 = .binary payload .base58 :=
  ⟨base58EncodeString (bincodeSerializeTransaction t), rfl, rfl⟩

/-- C5: `satisfies_commitment` is true exactly when the default
(finalized) commitment is requested and the status is rooted, or the
recent commitment is requested; `Some 10` confirmations fail the default
commitment but satisfy the recent one. -/
theorem claim_C5_satisfies_commitment (st : TransactionStatus)
    (cfg : CommitmentConfig) :
    (st.satisfies_commitment cfg = true ↔
      ((cfg = CommitmentConfig.default ∧ st.confirmations = none) ∨
        cfg = CommitmentConfig.recent)) ∧
    (st.confirmations = some 10 →
      st.satisfies_commitment CommitmentConfig.default = false ∧
        st.satisfies_commitment CommitmentConfig.recent = true) := by
  constructor
  · simp [TransactionStatus.satisfies_commitment,
      Option.isNone_iff_eq_none]
  · intro h
    constructor
    · simp [TransactionStatus.satisfies_commitment, h,
        CommitmentConfig.default, CommitmentConfig.recent]
    · simp [TransactionStatus.satisfies_commitment]

/-- C5 witness: a status with ten confirmations fails the default
commitment and satisfies the recent one. -/
theorem claim_C5_witness :
    TransactionStatus.satisfies_commitment ⟨0, some 10, .ok (), none⟩
        CommitmentConfig.default = false ∧
      TransactionStatus.satisfies_commitment ⟨0, some 10, .ok (), none⟩
        CommitmentConfig.recent = true :=
  (claim_C5_satisfies_commitment ⟨0, some 10, .ok (), none⟩
    CommitmentConfig.default).2 rfl

/-- C6: transforming metadata with the JsonParsed format projects each
inner compiled instruction through the instruction parser (with
partially-decoded fallback) against the outer message's account keys; any
other format projects every inner instruction raw, with no parsing. -/
theorem claim_C6_inner_instruction_projection
    (meta : TransactionStatusMeta) (m : Message) :
    ((meta.encode .jsonParsed m).inner_instructions =
      meta.inner_instructions.map fun ixs => ixs.map fun inner =>
        { index := inner.index
          instructions := inner.instructions.map fun ix =>
            UiInstruction.parse ix m }) ∧
    ∀ enc, enc ≠ UiTransactionEncoding.jsonParsed →
      (meta.encode enc m).inner_instructions =
        meta.inner_instructions.map fun ixs => ixs.map fun inner =>
          { index := inner.index
            instructions := inner.instructions.map fun ix =>
              UiInstruction.compiled (UiCompiledInstruction.fromCompiled ix) } := by
  constructor
  · simp [TransactionStatusMeta.encode, UiTransactionStatusMeta.parse,
      UiInnerInstructions.parse]
  · intro enc henc
    have hfi : UiInnerInstructions.fromInner = fun inner =>
        ({ index := inner.index
           instructions := inner.instructions.map fun ix =>
             UiInstruction.compiled (UiCompiledInstruction.fromCompiled ix) } :
          UiInnerInstructions) := by
      funext inner
      rfl
    cases enc <;>
      simp [TransactionStatusMeta.encode, UiTransactionStatusMeta.fromMeta,
        hfi] at henc ⊢

/-- C6 witness: a concrete metadata with one inner group projects raw
under the Json format. -/
theorem claim_C6_witness :
    (TransactionStatusMeta.encode ⟨.ok (), 0, [], [], some [⟨0, []⟩], none⟩
        .json ⟨⟨0, 0, 0⟩, [], 0, []⟩).inner_instructions =
      (some [⟨0, []⟩] : Option (List InnerInstructions)).map fun ixs =>
        ixs.map fun inner =>
          { index := inner.index
            instructions := inner.instructions.map fun ix =>
              UiInstruction.compiled (UiCompiledInstruction.fromCompiled ix) } :=
  (claim_C6_inner_instruction_projection ⟨.ok (), 0, [], [], some [⟨0, []⟩], none⟩
    ⟨⟨0, 0, 0⟩, [], 0, []⟩).2 .json (by decide)

/-- `default_on_eof` passes a successful parse through. -/
theorem default_on_eof_ok {p : ByteParser α} {d : α} {bs : List Nat}
    {r : α × List Nat} (h : p bs = .ok r) :
    default_on_eof p d bs = .ok r := by
  simp [default_on_eof, h]

/-- `default_on_eof` yields the default at end of input. -/
theorem default_on_eof_nil (p : ByteParser α) (d : α)
    (h : p [] = .error .eof) : default_on_eof p d [] = .ok (d, []) := by
  simp [default_on_eof, h]

/-- C7: a `TransactionStatusMeta` deserialized from a legacy byte stream
truncated before the optional trailing fields succeeds with those fields
`none` (truncating before both, or only before `log_messages`); a
`Reward` truncated before `post_balance` deserializes with
`post_balance = 0`. -/
theorem claim_C7_legacy_truncation_defaults
    (status : TxResult) (fee : Nat) (pre post : List Nat)
    (inner : List InnerInstructions) (pk : String) (lamports : Int)
    (hst : status.wf) (hfee : fee < 256 ^ 8)
    (hpre : pre.length < 256 ^ 8) (hpre2 : ∀ b ∈ pre, b < 256 ^ 8)
    (hpost : post.length < 256 ^ 8) (hpost2 : ∀ b ∈ post, b < 256 ^ 8)
    (hinner : inner.length < 256 ^ 8) (hinner2 : ∀ g ∈ inner, g.wfSer)
    (hpk : pk.length < 256 ^ 8)
    (hlam1 : -(2 ^ 63) ≤ lamports) (hlam2 : lamports < 2 ^ 63) :
    deserializeTransactionStatusMeta
        (serTxResult status ++ natToBytesLE 8 fee ++
          serListWith (natToBytesLE 8) pre ++
          serListWith (natToBytesLE 8) post) =
      some ⟨status, fee, pre, post, none, none⟩ ∧
    deserializeTransactionStatusMeta
        (serTxResult status ++ natToBytesLE 8 fee ++
          serListWith (natToBytesLE 8) pre ++
          serListWith (natToBytesLE 8) post ++
          serOption (serListWith serInnerInstructions) (some inner)) =
      some ⟨status, fee, pre, post, some inner, none⟩ ∧
    deserializeReward (serString pk ++ serI64 lamports) =
      some ⟨pk, lamports, 0⟩ := by
  have hpreP : ∀ r, pList (pFixedNat 8)
      (serListWith (natToBytesLE 8) pre ++ r) = .ok (pre, r) :=
    fun r => pList_serListWith pre hpre
      (fun b hb r2 => pFixedNat_natToBytesLE_of_lt (hpre2 b hb) r2) r
  have hpostP : ∀ r, pList (pFixedNat 8)
      (serListWith (natToBytesLE 8) post ++ r) = .ok (post, r) :=
    fun r => pList_serListWith post hpost
      (fun b hb r2 => pFixedNat_natToBytesLE_of_lt (hpost2 b hb) r2) r
  have hinnerP : ∀ r, pOption (pList pInnerInstructions)
      (serOption (serListWith serInnerInstructions) (some inner) ++ r) =
      .ok (some inner, r) :=
    fun r => pOption_ser_some
      (fun r2 => pList_serListWith inner hinner
        (fun g hg r3 => pInnerInstructions_ser g (hinner2 g hg) r3) r2) r
  refine ⟨?_, ?_, ?_⟩
  · have hshape : serTxResult status ++ natToBytesLE 8 fee ++
        serListWith (natToBytesLE 8) pre ++
        serListWith (natToBytesLE 8) post =
        serTxResult status ++ (natToBytesLE 8 fee ++
          (serListWith (natToBytesLE 8) pre ++
            (serListWith (natToBytesLE 8) post ++ []))) := by
      simp
    rw [hshape]
    simp only [deserializeTransactionStatusMeta, pTransactionStatusMeta,
      pTxResult_ser status hst, pFixedNat_natToBytesLE_of_lt hfee,
      hpreP, hpostP,
      default_on_eof_nil (pOption (pList pInnerInstructions)) none rfl,
      default_on_eof_nil (pOption (pList pString)) none rfl]
  · have hshape : serTxResult status ++ natToBytesLE 8 fee ++
        serListWith (natToBytesLE 8) pre ++
        serListWith (natToBytesLE 8) post ++
        serOption (serListWith serInnerInstructions) (some inner) =
        serTxResult status ++ (natToBytesLE 8 fee ++
          (serListWith (natToBytesLE 8) pre ++
            (serListWith (natToBytesLE 8) post ++
              (serOption (serListWith serInnerInstructions) (some inner) ++
                [])))) := by
      simp
    rw [hshape]
    simp only [deserializeTransactionStatusMeta, pTransactionStatusMeta,
      pTxResult_ser status hst, pFixedNat_natToBytesLE_of_lt hfee,
      hpreP, hpostP, default_on_eof_ok (hinnerP []),
      default_on_eof_nil (pOption (pList pString)) none rfl]
  · have hshape : serString pk ++ serI64 lamports =
        serString pk ++ (serI64 lamports ++ []) := by simp
    rw [hshape]
    simp only [deserializeReward, pReward, pString_serString pk hpk,
      pI64_serI64 lamports hlam1 hlam2,
      default_on_eof_nil (pFixedNat 8) 0 rfl]

/-- C7 witness: concrete truncated streams default the trailing fields. -/
theorem claim_C7_witness :
    deserializeTransactionStatusMeta
        (serTxResult (.ok ()) ++ natToBytesLE 8 1 ++
          serListWith (natToBytesLE 8) [2] ++
          serListWith (natToBytesLE 8) [3]) =
      some ⟨.ok (), 1, [2], [3], none, none⟩ ∧
    deserializeTransactionStatusMeta
        (serTxResult (.ok ()) ++ natToBytesLE 8 1 ++
          serListWith (natToBytesLE 8) [2] ++
          serListWith (natToBytesLE 8) [3] ++
          serOption (serListWith serInnerInstructions)
            (some [⟨1, [⟨0, [], []⟩]⟩])) =
      some ⟨.ok (), 1, [2], [3], some [⟨1, [⟨0, [], []⟩]⟩], none⟩ ∧
    deserializeReward (serString (String.mk ['a']) ++ serI64 (-1)) =
      some ⟨String.mk ['a'], -1, 0⟩ :=
  claim_C7_legacy_truncation_defaults (.ok ()) 1 [2] [3]
    [⟨1, [⟨0, [], []⟩]⟩] (String.mk ['a']) (-1) (by decide) (by decide)
    (by decide) (by decide) (by decide) (by decide) (by decide) (by decide)
    (by decide) (by decide) (by decide)

/-- C8: the metadata transformation (raw or parsed, any format) derives
`err` from the status, passes `status`, `fee`, the balance arrays and
`log_messages` through unchanged, preserves presence/absence of
`inner_instructions` (never inventing a value, and preserving the
group count when present), and leaves `err` absent on success. -/
theorem claim_C8_meta_projection_frame (meta : TransactionStatusMeta)
    (m : Message) (enc : UiTransactionEncoding) :
    ((meta.encode enc m).err = txResultErr meta.status) ∧
    ((meta.encode enc m).status = meta.status) ∧
    ((meta.encode enc m).fee = meta.fee) ∧
    ((meta.encode enc m).pre_balances = meta.pre_balances) ∧
    ((meta.encode enc m).post_balances = meta.post_balances) ∧
    ((meta.encode enc m).log_messages = meta.log_messages) ∧
    ((meta.encode enc m).inner_instructions.isNone ↔
      meta.inner_instructions.isNone) ∧
    (∀ l, (meta.encode enc m).inner_instructions = some l →
      ∃ src, meta.inner_instructions = some src ∧ l.length = src.length) ∧
    (meta.status = .ok () → (meta.encode enc m).err = none) := by
  have hbranch : meta.encode enc m = UiTransactionStatusMeta.parse meta m ∨
      meta.encode enc m = UiTransactionStatusMeta.fromMeta meta := by
    cases enc <;> simp [TransactionStatusMeta.encode]
  rcases hbranch with h | h <;>
    rw [h] <;>
    refine ⟨rfl, rfl, rfl, rfl, rfl, rfl, ?_, ?_, fun hok => by
      simp [UiTransactionStatusMeta.parse, UiTransactionStatusMeta.fromMeta,
        hok, txResultErr]⟩ <;>
    cases hmi : meta.inner_instructions <;>
      simp [UiTransactionStatusMeta.parse, UiTransactionStatusMeta.fromMeta,
        hmi]

/-- C8 witness: a concrete success metadata has absent `err` and its
present-but-empty inner instruction list is preserved as present. -/
theorem claim_C8_witness :
    (TransactionStatusMeta.encode ⟨.ok (), 5, [1], [2], some [], none⟩
        .json ⟨⟨0, 0, 0⟩, [], 0, []⟩).err = none ∧
      ∃ src, (⟨.ok (), 5, [1], [2], some [], none⟩ :
          TransactionStatusMeta).inner_instructions = some src ∧
        ([] : List UiInnerInstructions).length = src.length := by
  have h := claim_C8_meta_projection_frame
    ⟨.ok (), 5, [1], [2], some [], none⟩ ⟨⟨0, 0, 0⟩, [], 0, []⟩ .json
  exact ⟨h.2.2.2.2.2.2.2.2 rfl, h.2.2.2.2.2.2.2.1 [] (by decide)⟩

/-- C9: the Json and JsonParsed presentation formats are not reversible:
decoding their encodings returns `none`. -/
theorem claim_C9_json_irreversible (t : Transaction) :
    (EncodedTransaction.encode t .json).decode = none ∧
      (EncodedTransaction.encode t .jsonParsed).decode = none :=
  ⟨rfl, rfl⟩

/-- C10: a Binary-variant encoded transaction whose embedded format tag
is Binary, Json, or JsonParsed decodes to `none` without attempting any
base decoding. -/
theorem claim_C10_binary_variant_bad_tags (s : String) :
    (EncodedTransaction.binary s .binary).decode = none ∧
      (EncodedTransaction.binary s .json).decode = none ∧
      (EncodedTransaction.binary s .jsonParsed).decode = none :=
  ⟨rfl, rfl, rfl⟩
